import Mathlib

/-!
Verification of the pickleball scheduler engine.

The development shallowly embeds the two source files of the repository:

* the plain scheduler (`shuffle`, `chunk`, `buildParticipants`,
  `generateSchedule`) from the unnamed source file, and
* the fairness-aware partner-play scheduler (`shuffle`, `pairKey`,
  `chooseByesFair`, `buildMatchesAvoidRepeats`, `asText`, `generate`)
  from `src/App.tsx`.

Randomness (`Math.random`) is modelled by explicit streams of natural
number draws, so every theorem quantifies over all possible random draws.
JavaScript mutation is modelled by explicit state passing; `Record` objects
are modelled by association lists and `Set` objects by lists queried through
membership.
-/

namespace Pickleball

open scoped List

/-! ### Fisher–Yates shuffle (function `shuffle`, present in both source files)

The TypeScript `shuffle` copies the input array and runs a Fisher–Yates pass:
for `i` from `length - 1` down to `1` it swaps positions `i` and `j`, where
`j = floor(random() * (i + 1))` is a uniform draw in `[0, i]`.  The stream of
draws is the explicit argument `js`; the draw used at index `i` is reduced
modulo `i + 1`, so every value the real draw can take is representable. -/

def listSwap {α : Type u} (l : List α) (i j : ℕ) : List α :=
  match l[i]?, l[j]? with
  | some x, some y => (l.set i y).set j x
  | _, _ => l

def shuffleGo {α : Type u} : List α → ℕ → List ℕ → List α
  | a, 0, _ => a
  | a, _ + 1, [] => a
  | a, i + 1, j :: js => shuffleGo (listSwap a (i + 1) (j % (i + 2))) i js

def shuffle {α : Type u} (l : List α) (js : List ℕ) : List α :=
  shuffleGo l (l.length - 1) js

theorem cons_set_perm {α : Type u} (t : List α) (k : ℕ) (a y : α)
    (h : t[k]? = some y) : (y :: t.set k a).Perm (a :: t) := by
  induction t generalizing k with
  | nil => simp at h
  | cons b t ih =>
    cases k with
    | zero =>
      simp only [List.getElem?_cons_zero, Option.some.injEq] at h
      rw [← h]
      simpa using List.Perm.swap a b t
    | succ k =>
      simp only [List.getElem?_cons_succ] at h
      calc (y :: (b :: t).set (k + 1) a)
          = y :: b :: t.set k a := rfl
        _ ~ b :: y :: t.set k a := List.Perm.swap b y _
        _ ~ b :: a :: t := (ih k h).cons b
        _ ~ a :: b :: t := List.Perm.swap a b t

theorem set_set_perm {α : Type u} (l : List α) (i j : ℕ) (x y : α)
    (hx : l[i]? = some x) (hy : l[j]? = some y) :
    ((l.set i y).set j x).Perm l := by
  induction l generalizing i j with
  | nil => simp at hx
  | cons a t ih =>
    cases i with
    | zero =>
      simp only [List.getElem?_cons_zero, Option.some.injEq] at hx
      cases j with
      | zero => rw [← hx]; simp
      | succ k =>
        simp only [List.getElem?_cons_succ] at hy
        rw [← hx]
        exact cons_set_perm t k a y hy
    | succ m =>
      simp only [List.getElem?_cons_succ] at hx
      cases j with
      | zero =>
        simp only [List.getElem?_cons_zero, Option.some.injEq] at hy
        rw [← hy]
        exact cons_set_perm t m a x hx
      | succ k =>
        simp only [List.getElem?_cons_succ] at hy
        calc ((a :: t).set (m + 1) y).set (k + 1) x
            = a :: ((t.set m y).set k x) := rfl
          _ ~ a :: t := (ih m k hx hy).cons a

theorem listSwap_perm {α : Type u} (l : List α) (i j : ℕ) :
    (listSwap l i j).Perm l := by
  unfold listSwap
  cases hx : l[i]? with
  | none => exact List.Perm.refl l
  | some x =>
    cases hy : l[j]? with
    | none => exact List.Perm.refl l
    | some y => exact set_set_perm l i j x y hx hy

theorem shuffleGo_perm {α : Type u} :
    ∀ (l : List α) (i : ℕ) (js : List ℕ), (shuffleGo l i js).Perm l := by
  intro l i js
  induction js generalizing l i with
  | nil => cases i <;> exact List.Perm.refl l
  | cons j js ih =>
    cases i with
    | zero => exact List.Perm.refl l
    | succ i =>
      exact (ih (listSwap l (i + 1) (j % (i + 2))) i).trans
        (listSwap_perm l (i + 1) (j % (i + 2)))

theorem shuffle_perm {α : Type u} (l : List α) (js : List ℕ) :
    (shuffle l js).Perm l :=
  shuffleGo_perm l (l.length - 1) js

/-! ### `chunk` (unnamed source file)

TypeScript: `for (let i = 0; i < array.length; i += size) out.push(array.slice(i, i + size))`.
The loop diverges for `size = 0`; the embedding returns `[]` in that case, and the
single caller only ever uses `size ∈ {2, 4}`. -/

def chunk {α : Type u} : List α → ℕ → List (List α)
  | [], _ => []
  | x :: xs, size =>
    if size = 0 then []
    else (x :: xs).take size :: chunk ((x :: xs).drop size) size
termination_by l => l.length
decreasing_by
  simp only [List.drop, List.length_drop, List.length_cons]
  omega

theorem chunk_nil {α : Type u} (u : ℕ) : chunk ([] : List α) u = [] := by
  simp [chunk]

theorem chunk_cons {α : Type u} (x : α) (xs : List α) (u : ℕ) (hu : u ≠ 0) :
    chunk (x :: xs) u = (x :: xs).take u :: chunk ((x :: xs).drop u) u := by
  rw [chunk]
  simp [hu]

theorem chunk_flatten {α : Type u} : ∀ (l : List α) (u : ℕ), u ≠ 0 →
    (chunk l u).flatten = l
  | [], u, _ => by simp [chunk]
  | x :: xs, u, hu => by
    rw [chunk_cons x xs u hu]
    simp only [List.flatten_cons]
    rw [chunk_flatten ((x :: xs).drop u) u hu]
    exact List.take_append_drop u (x :: xs)
termination_by l => l.length
decreasing_by simp only [List.length_drop, List.length_cons]; omega

theorem chunk_length_le {α : Type u} : ∀ (l : List α) (u n : ℕ), u ≠ 0 →
    l.length ≤ n * u → (chunk l u).length ≤ n
  | [], u, n, _, _ => by simp [chunk]
  | x :: xs, u, n, hu, hl => by
    rw [chunk_cons x xs u hu]
    have hn : n ≠ 0 := by
      rintro rfl
      simp at hl
    obtain ⟨m, rfl⟩ : ∃ m, n = m + 1 := ⟨n - 1, by omega⟩
    have hmul : (m + 1) * u = m * u + u := by ring
    have hrec := chunk_length_le ((x :: xs).drop u) u m hu
      (by simp only [List.length_drop]; omega)
    simp only [List.length_cons]
    omega
termination_by l => l.length
decreasing_by simp only [List.length_drop, List.length_cons]; omega

theorem chunk_length {α : Type u} : ∀ (l : List α) (u : ℕ), u ≠ 0 →
    (chunk l u).length = (l.length + u - 1) / u
  | [], u, hu => by
    rw [chunk_nil]
    simp only [List.length_nil, Nat.zero_add]
    exact (Nat.div_eq_of_lt (by omega)).symm
  | x :: xs, u, hu => by
    rw [chunk_cons x xs u hu]
    simp only [List.length_cons]
    rw [chunk_length ((x :: xs).drop u) u hu]
    simp only [List.length_drop, List.length_cons]
    have hru : xs.length + 1 + u - 1 = xs.length + u := by omega
    rw [hru, Nat.add_div_right _ (by omega)]
    rcases le_or_lt u (xs.length + 1) with hcase | hcase
    · have h1 : xs.length + 1 - u + u - 1 = xs.length := by omega
      rw [h1]
    · have h1 : xs.length + 1 - u + u - 1 = u - 1 := by omega
      rw [h1, Nat.div_eq_of_lt (show u - 1 < u by omega),
        Nat.div_eq_of_lt (show xs.length < u by omega)]
termination_by l => l.length
decreasing_by simp only [List.length_drop, List.length_cons]; omega

theorem chunk_mem_length {α : Type u} : ∀ (l : List α) (u : ℕ) (s : List α), u ≠ 0 →
    s ∈ chunk l u → 0 < s.length ∧ s.length ≤ u
  | [], u, s, _, hs => by simp [chunk] at hs
  | x :: xs, u, s, hu, hs => by
    rw [chunk_cons x xs u hu] at hs
    rcases List.mem_cons.1 hs with rfl | hs
    · simp only [List.length_take, List.length_cons]
      omega
    · exact chunk_mem_length ((x :: xs).drop u) u s hu hs
termination_by l => l.length
decreasing_by simp only [List.length_drop, List.length_cons]; omega

theorem chunk_eq_nil_iff {α : Type u} (l : List α) (u : ℕ) (hu : u ≠ 0) :
    chunk l u = [] ↔ l = [] := by
  cases l with
  | nil => simp [chunk]
  | cons x xs => rw [chunk_cons x xs u hu]; simp

theorem chunk_getD_full {α : Type u} : ∀ (l : List α) (u i : ℕ), u ≠ 0 →
    i + 1 < (chunk l u).length → ((chunk l u).getD i []).length = u
  | [], u, i, hu, hi => by rw [chunk_nil] at hi; simp at hi
  | x :: xs, u, i, hu, hi => by
    rw [chunk_cons x xs u hu] at hi ⊢
    cases i with
    | zero =>
      simp only [List.getD_cons_zero, List.length_take, List.length_cons]
      simp only [List.length_cons] at hi
      have hne : chunk ((x :: xs).drop u) u ≠ [] := by
        intro hnil
        rw [hnil] at hi
        simp at hi
      have hdrop : (x :: xs).drop u ≠ [] := by
        intro hnil
        rw [← chunk_eq_nil_iff ((x :: xs).drop u) u hu] at hnil
        exact hne hnil
      have : xs.length + 1 - u ≠ 0 := by
        intro h0
        apply hdrop
        apply List.eq_nil_of_length_eq_zero
        simp only [List.length_drop, List.length_cons]
        exact h0
      omega
    | succ i =>
      simp only [List.getD_cons_succ]
      simp only [List.length_cons] at hi
      exact chunk_getD_full ((x :: xs).drop u) u i hu (by omega)
termination_by l => l.length
decreasing_by simp only [List.length_drop, List.length_cons]; omega

/-! ### Injectivity of the decimal rendering used for participant names

`buildParticipants` names participants with a JavaScript template literal
whose numeric part renders in decimal; the Lean side is `Nat.repr`.  The
partition claim asserts absence of duplicates, which reduces to injectivity
of `Nat.repr`; that fact is not in the library, so it is proved here through
a decimal decode round-trip. -/

def charToDigit (c : Char) : ℕ := c.toNat - 48

theorem charToDigit_digitChar : ∀ m : ℕ, m < 10 → charToDigit (Nat.digitChar m) = m := by
  decide

def digitsRec (n : ℕ) : List Char :=
  if n < 10 then [Nat.digitChar n]
  else digitsRec (n / 10) ++ [Nat.digitChar (n % 10)]
termination_by n
decreasing_by exact Nat.div_lt_self (by omega) (by omega)

theorem digitsRec_of_lt {n : ℕ} (h : n < 10) : digitsRec n = [Nat.digitChar n] := by
  rw [digitsRec, if_pos h]

theorem digitsRec_of_ge {n : ℕ} (h : ¬ n < 10) :
    digitsRec n = digitsRec (n / 10) ++ [Nat.digitChar (n % 10)] := by
  rw [digitsRec, if_neg h]

theorem toDigitsCore_eq_digitsRec : ∀ (f n : ℕ) (acc : List Char), n < f →
    Nat.toDigitsCore 10 f n acc = digitsRec n ++ acc := by
  intro f
  induction f with
  | zero => intro n acc h; omega
  | succ f ih =>
    intro n acc hnf
    by_cases h10 : n < 10
    · have hdiv : n / 10 = 0 := Nat.div_eq_of_lt h10
      have hmod : n % 10 = n := Nat.mod_eq_of_lt h10
      simp only [Nat.toDigitsCore, hdiv, if_pos, hmod]
      rw [digitsRec_of_lt h10]
      simp
    · have hdiv : ¬ n / 10 = 0 := by
        rw [Nat.div_eq_zero_iff (by omega)]
        omega
      have hlt : n / 10 < f := by
        have h1 : n / 10 < n := Nat.div_lt_self (by omega) (by omega)
        omega
      simp only [Nat.toDigitsCore, if_neg hdiv]
      rw [ih (n / 10) (Nat.digitChar (n % 10) :: acc) hlt]
      rw [digitsRec_of_ge h10]
      simp

theorem foldl_digitsRec : ∀ (n a : ℕ),
    (digitsRec n).foldl (fun acc c => 10 * acc + charToDigit c) a
      = a * 10 ^ (digitsRec n).length + n := by
  intro n
  induction n using Nat.strong_induction_on with
  | _ n ih =>
    intro a
    by_cases h10 : n < 10
    · rw [digitsRec_of_lt h10]
      simp only [List.foldl_cons, List.foldl_nil, List.length_cons, List.length_nil]
      rw [charToDigit_digitChar n h10]
      ring
    · rw [digitsRec_of_ge h10]
      rw [List.foldl_append]
      have hlt : n / 10 < n := Nat.div_lt_self (by omega) (by omega)
      rw [ih (n / 10) hlt a]
      simp only [List.foldl_cons, List.foldl_nil, List.length_append, List.length_cons,
        List.length_nil]
      rw [charToDigit_digitChar (n % 10) (Nat.mod_lt n (by omega))]
      have hdm : 10 * (n / 10) + n % 10 = n := Nat.div_add_mod n 10
      have hpow : a * 10 ^ ((digitsRec (n / 10)).length + (0 + 1))
          = 10 * (a * 10 ^ (digitsRec (n / 10)).length) := by ring
      rw [hpow]
      omega

theorem digitsRec_injective {m n : ℕ} (h : digitsRec m = digitsRec n) : m = n := by
  have hm := foldl_digitsRec m 0
  have hn := foldl_digitsRec n 0
  rw [h] at hm
  simp only [Nat.zero_mul, Nat.zero_add] at hm hn
  omega

theorem repr_injective {m n : ℕ} (h : Nat.repr m = Nat.repr n) : m = n := by
  apply digitsRec_injective
  have hm : Nat.toDigits 10 m = digitsRec m := by
    have := toDigitsCore_eq_digitsRec (m + 1) m [] (by omega)
    simpa [Nat.toDigits] using this
  have hn : Nat.toDigits 10 n = digitsRec n := by
    have := toDigitsCore_eq_digitsRec (n + 1) n [] (by omega)
    simpa [Nat.toDigits] using this
  have hdata := congrArg String.data h
  simpa [Nat.repr, List.asString, hm, hn] using hdata

/-! ### The plain scheduler of the unnamed source file

Types `Mode`, `CourtAssignment`, `Round` and functions `buildParticipants`
and `generateSchedule` are translated directly.  The `participantCount` and
`games` inputs are JavaScript numbers that validation compares against `0`,
so they are modelled as integers.  Randomness is an explicit stream
`rnd : ℕ → List ℕ` of Fisher–Yates draw lists, one per generated round. -/

inductive Mode where
  | couples
  | roundRobin
deriving DecidableEq

structure CourtAssignment where
  courtNumber : ℕ
  group : List String
deriving DecidableEq

structure Round where
  gameNumber : ℕ
  courts : List CourtAssignment
  byes : List String
deriving DecidableEq

def buildParticipants (mode : Mode) (count : ℤ) : List String :=
  if count ≤ 0 then []
  else
    let label := if mode = Mode.couples then "Couple" else "Player"
    (List.range count.toNat).map (fun i => label ++ " " ++ Nat.repr (i + 1))

def scheduleRound (rnd : ℕ → List ℕ) (participants : List String)
    (courtNumbers : List ℕ) (unitsPerCourt : ℕ) (g : ℕ) : Round :=
  let shuffled := shuffle participants (rnd g)
  let maxUnitsUsed := courtNumbers.length * unitsPerCourt
  let used := shuffled.take maxUnitsUsed
  let byes := shuffled.drop maxUnitsUsed
  let groups := (chunk used unitsPerCourt).take courtNumbers.length
  { gameNumber := g
    courts := groups.enum.map (fun p => { courtNumber := courtNumbers.getD p.1 0, group := p.2 })
    byes := byes }

def generateSchedule (rnd : ℕ → List ℕ) (mode : Mode) (participantCount : ℤ)
    (courtNumbers : List ℕ) (games : ℤ) : List Round × String :=
  let participants := buildParticipants mode participantCount
  let unitsPerCourt : ℕ := if mode = Mode.couples then 2 else 4
  if participants.length = 0 then
    ([], "Please enter the number of couples/players.")
  else if courtNumbers.length = 0 then
    ([], "Please enter courts (e.g., 8 or 1-3,5,6).")
  else if games ≤ 0 then
    ([], "Please enter the number of games.")
  else
    ((List.range games.toNat).map
      (fun k => scheduleRound rnd participants courtNumbers unitsPerCourt (k + 1)), "")

theorem buildParticipants_length (mode : Mode) (count : ℤ) (h : 0 < count) :
    (buildParticipants mode count).length = count.toNat := by
  rw [buildParticipants, if_neg (by omega)]
  simp

theorem buildParticipants_nodup (mode : Mode) (count : ℤ) :
    (buildParticipants mode count).Nodup := by
  rw [buildParticipants]
  split
  · exact List.nodup_nil
  · apply List.Nodup.map
    · intro i j hij
      have h1 : Nat.repr (i + 1) = Nat.repr (j + 1) := by
        have := congrArg String.data hij
        simp only [String.data_append] at this
        have h2 := List.append_cancel_left this
        exact String.ext h2
      have := repr_injective h1
      omega
    · exact List.nodup_range _

theorem buildParticipants_length_zero_iff (mode : Mode) (count : ℤ) :
    (buildParticipants mode count).length = 0 ↔ count ≤ 0 := by
  rw [buildParticipants]
  split
  · simpa
  · rename_i h
    simp only [List.length_map, List.length_range]
    omega

/-- Randomness stream that makes every Fisher–Yates pass the identity:
an empty draw list for every call. -/
def noRand : ℕ → List ℕ := fun _ => []

theorem shuffleGo_nil_js {α : Type u} (l : List α) (i : ℕ) : shuffleGo l i [] = l := by
  cases i <;> rfl

theorem shuffle_nil_js {α : Type u} (l : List α) : shuffle l [] = l :=
  shuffleGo_nil_js l (l.length - 1)

theorem scheduleRound_parts (rnd : ℕ → List ℕ) (P : List String) (C : List ℕ) (u g : ℕ)
    (hu : u ≠ 0) :
    (scheduleRound rnd P C u g).courts =
      (chunk ((shuffle P (rnd g)).take (C.length * u)) u).enum.map
        (fun p => { courtNumber := C.getD p.1 0, group := p.2 })
    ∧ (scheduleRound rnd P C u g).byes = (shuffle P (rnd g)).drop (C.length * u) := by
  have hcsz : (chunk ((shuffle P (rnd g)).take (C.length * u)) u).length ≤ C.length := by
    apply chunk_length_le _ _ _ hu
    rw [List.length_take]
    exact min_le_left _ _
  constructor
  · simp only [scheduleRound, List.take_of_length_le hcsz]
  · rfl

theorem generateSchedule_valid_rounds (rnd : ℕ → List ℕ) (mode : Mode) (pc : ℤ)
    (courts : List ℕ) (games : ℤ) (hpc : 0 < pc) (hc : courts ≠ []) (hg : 0 < games) :
    (generateSchedule rnd mode pc courts games).1 =
      (List.range games.toNat).map
        (fun k => scheduleRound rnd (buildParticipants mode pc) courts
          (if mode = Mode.couples then 2 else 4) (k + 1))
    ∧ (generateSchedule rnd mode pc courts games).2 = "" := by
  have h1 : ¬ (buildParticipants mode pc).length = 0 := by
    rw [buildParticipants_length_zero_iff]
    omega
  have h2 : ¬ courts.length = 0 := by
    simpa using hc
  have h3 : ¬ games ≤ 0 := by omega
  rw [generateSchedule]
  simp only [if_neg h1, if_neg h2, if_neg h3]
  exact ⟨trivial, trivial⟩

theorem units_ne_zero (mode : Mode) : (if mode = Mode.couples then 2 else 4) ≠ 0 := by
  cases mode <;> simp

/-- C1: for every valid generation request and every round returned, the byes
and the court groups together form a permutation of the full participant list
(which has `participantCount` distinct members), hence they are pairwise
disjoint, cover everyone, and contain no duplicates. -/
theorem generateSchedule_round_partition (rnd : ℕ → List ℕ) (mode : Mode) (pc : ℤ)
    (courts : List ℕ) (games : ℤ) (hpc : 0 < pc) (hc : courts ≠ []) (hg : 0 < games) :
    ∀ r ∈ (generateSchedule rnd mode pc courts games).1,
      ((r.courts.map CourtAssignment.group).flatten ++ r.byes).Perm
          (buildParticipants mode pc)
      ∧ ((r.courts.map CourtAssignment.group).flatten ++ r.byes).Nodup
      ∧ (buildParticipants mode pc).length = pc.toNat := by
  intro r hr
  rw [(generateSchedule_valid_rounds rnd mode pc courts games hpc hc hg).1] at hr
  simp only [List.mem_map, List.mem_range] at hr
  obtain ⟨k, _, rfl⟩ := hr
  set u : ℕ := if mode = Mode.couples then 2 else 4 with hudef
  have hu : u ≠ 0 := units_ne_zero mode
  set P := buildParticipants mode pc
  obtain ⟨hcourts, hbyes⟩ := scheduleRound_parts rnd P courts u (k + 1) hu
  have hgroups : ((scheduleRound rnd P courts u (k + 1)).courts.map
      CourtAssignment.group).flatten = (shuffle P (rnd (k + 1))).take (courts.length * u) := by
    rw [hcourts, List.map_map]
    have hmm : (CourtAssignment.group ∘ fun p : ℕ × List String =>
        ({ courtNumber := courts.getD p.1 0, group := p.2 } : CourtAssignment))
        = Prod.snd := rfl
    rw [hmm, List.enum_map_snd]
    exact chunk_flatten _ u hu
  have hperm : ((scheduleRound rnd P courts u (k + 1)).courts.map
      CourtAssignment.group).flatten ++ (scheduleRound rnd P courts u (k + 1)).byes ~ P := by
    rw [hgroups, hbyes, List.take_append_drop]
    exact shuffle_perm P (rnd (k + 1))
  refine ⟨hperm, ?_, buildParticipants_length mode pc hpc⟩
  exact hperm.nodup_iff.2 (buildParticipants_nodup mode pc)

unseal chunk in
/-- Witness for C1 at a concrete input: two couples, one court, one game. -/
theorem generateSchedule_round_partition_witness :
    ((((generateSchedule noRand Mode.couples 2 [1] 1).1.getD 0
        ⟨0, [], []⟩).courts.map CourtAssignment.group).flatten ++
      ((generateSchedule noRand Mode.couples 2 [1] 1).1.getD 0 ⟨0, [], []⟩).byes).Perm
        (buildParticipants Mode.couples 2)
    ∧ ((((generateSchedule noRand Mode.couples 2 [1] 1).1.getD 0
        ⟨0, [], []⟩).courts.map CourtAssignment.group).flatten ++
      ((generateSchedule noRand Mode.couples 2 [1] 1).1.getD 0 ⟨0, [], []⟩).byes).Nodup
    ∧ (buildParticipants Mode.couples 2).length = (2 : ℤ).toNat :=
  generateSchedule_round_partition noRand Mode.couples 2 [1] 1 (by decide) (by decide)
    (by decide) ((generateSchedule noRand Mode.couples 2 [1] 1).1.getD 0 ⟨0, [], []⟩)
    (by decide)

unseal chunk in
/-- C2 counterexample: with 3 couples and 2 courts in couples mode, the code
forms a final court group with a single member, not 2. -/
theorem generateSchedule_short_group_exists :
    ∃ r ∈ (generateSchedule noRand Mode.couples 3 [1, 2] 1).1,
      ∃ ca ∈ r.courts, ca.group.length ≠ 2 := by
  decide

/-- C2 amended: every court group is non-empty with at most `unitsPerGroup`
members, and every group except possibly the last one has exactly
`unitsPerGroup` members (2 in couples mode, 4 in round-robin mode). -/
theorem generateSchedule_group_size_bounds (rnd : ℕ → List ℕ) (mode : Mode) (pc : ℤ)
    (courts : List ℕ) (games : ℤ) (hpc : 0 < pc) (hc : courts ≠ []) (hg : 0 < games) :
    ∀ r ∈ (generateSchedule rnd mode pc courts games).1,
      (∀ ca ∈ r.courts, 0 < ca.group.length ∧
        ca.group.length ≤ (if mode = Mode.couples then 2 else 4))
      ∧ (∀ i, i + 1 < r.courts.length →
        (r.courts.getD i ⟨0, []⟩).group.length = (if mode = Mode.couples then 2 else 4)) := by
  intro r hr
  rw [(generateSchedule_valid_rounds rnd mode pc courts games hpc hc hg).1] at hr
  simp only [List.mem_map, List.mem_range] at hr
  obtain ⟨k, _, rfl⟩ := hr
  set u : ℕ := if mode = Mode.couples then 2 else 4 with hudef
  have hu : u ≠ 0 := units_ne_zero mode
  set P := buildParticipants mode pc
  obtain ⟨hcourts, _⟩ := scheduleRound_parts rnd P courts u (k + 1) hu
  set ck := chunk ((shuffle P (rnd (k + 1))).take (courts.length * u)) u with hck
  constructor
  · intro ca hca
    rw [hcourts] at hca
    simp only [List.mem_map] at hca
    obtain ⟨p, hp, rfl⟩ := hca
    have hsnd : p.2 ∈ ck := by
      have := List.mem_map_of_mem Prod.snd hp
      rwa [List.enum_map_snd] at this
    exact chunk_mem_length _ u p.2 hu hsnd
  · intro i hi
    rw [hcourts] at hi ⊢
    simp only [List.length_map, List.enum_length] at hi
    have hilt : i < ck.length := by omega
    rw [List.getD_eq_getElem?_getD, List.getElem?_map, List.getElem?_enum,
      List.getElem?_eq_getElem hilt]
    simp only [Option.map_some', Option.getD_some]
    have hgetd : ck.getD i [] = ck[i] := by
      rw [List.getD_eq_getElem?_getD, List.getElem?_eq_getElem hilt, Option.getD_some]
    have := chunk_getD_full ((shuffle P (rnd (k + 1))).take (courts.length * u)) u i hu
      (by rw [← hck]; omega)
    rw [← hck, hgetd] at this
    exact this

unseal chunk in
/-- Witness for the amended C2 at a concrete input. -/
theorem generateSchedule_group_size_bounds_witness :
    0 < ((((generateSchedule noRand Mode.couples 3 [1, 2] 1).1.getD 0
        ⟨0, [], []⟩).courts.getD 0 ⟨0, []⟩).group.length)
    ∧ ((((generateSchedule noRand Mode.couples 3 [1, 2] 1).1.getD 0
        ⟨0, [], []⟩).courts.getD 0 ⟨0, []⟩).group.length) ≤ 2 :=
  (generateSchedule_group_size_bounds noRand Mode.couples 3 [1, 2] 1 (by decide) (by decide)
    (by decide) ((generateSchedule noRand Mode.couples 3 [1, 2] 1).1.getD 0 ⟨0, [], []⟩)
    (by decide)).1
    (((generateSchedule noRand Mode.couples 3 [1, 2] 1).1.getD 0
      ⟨0, [], []⟩).courts.getD 0 ⟨0, []⟩) (by decide)

theorem range_map_getD_eq_take (c : List ℕ) (k : ℕ) (hk : k ≤ c.length) :
    (List.range k).map (fun i => c.getD i 0) = c.take k := by
  apply List.ext_getElem
  · simp [hk]
  · intro i h1 h2
    simp only [List.length_map, List.length_range] at h1
    have hic : i < c.length := by omega
    simp only [List.getElem_map, List.getElem_range, List.getElem_take]
    rw [List.getD_eq_getElem?_getD, List.getElem?_eq_getElem hic, Option.getD_some]

theorem ceil_min_div (n C u : ℕ) (hu : u ≠ 0) :
    (min (C * u) n + u - 1) / u = min C ((n + u - 1) / u) := by
  rcases le_total (C * u) n with h | h
  · rw [min_eq_left h]
    have h1 : C * u + u - 1 = (u - 1) + C * u := by omega
    rw [h1, Nat.add_mul_div_right _ _ (by omega), Nat.div_eq_of_lt (by omega), Nat.zero_add]
    have h2 : C ≤ (n + u - 1) / u := by
      have h3 : (C * u + u - 1) / u ≤ (n + u - 1) / u := Nat.div_le_div_right (by omega)
      rwa [h1, Nat.add_mul_div_right _ _ (by omega), Nat.div_eq_of_lt (by omega),
        Nat.zero_add] at h3
    rw [min_eq_left h2]
  · rw [min_eq_right h]
    have h4 : (C + 1) * u = C * u + u := by ring
    have h5 : n + u - 1 < (C + 1) * u := by omega
    have h6 : (n + u - 1) / u < C + 1 := (Nat.div_lt_iff_lt_mul (by omega)).2 h5
    rw [min_eq_right (by omega)]

unseal chunk in
/-- C3 counterexample: with 3 couples and courts `[1, 2]` in couples mode, the
round carries 2 court entries, not `min(2, floor(3 / 2)) = 1`. -/
theorem generateSchedule_courts_count_ne_floor :
    ∃ r ∈ (generateSchedule noRand Mode.couples 3 [1, 2] 1).1,
      r.courts.length ≠ min ([1, 2] : List ℕ).length ((3 : ℤ).toNat / 2) := by
  decide

/-- C3 amended: every round has exactly
`min(courtNumbers.length, ceil(participantCount / unitsPerGroup))` court
entries (ceiling, not floor), labelled by the first that many court numbers
in the caller's order. -/
theorem generateSchedule_courts_count (rnd : ℕ → List ℕ) (mode : Mode) (pc : ℤ)
    (courts : List ℕ) (games : ℤ) (hpc : 0 < pc) (hc : courts ≠ []) (hg : 0 < games) :
    ∀ r ∈ (generateSchedule rnd mode pc courts games).1,
      r.courts.length = min courts.length
        ((pc.toNat + (if mode = Mode.couples then 2 else 4) - 1) /
          (if mode = Mode.couples then 2 else 4))
      ∧ r.courts.map CourtAssignment.courtNumber = courts.take r.courts.length := by
  intro r hr
  rw [(generateSchedule_valid_rounds rnd mode pc courts games hpc hc hg).1] at hr
  simp only [List.mem_map, List.mem_range] at hr
  obtain ⟨k, _, rfl⟩ := hr
  set u : ℕ := if mode = Mode.couples then 2 else 4 with hudef
  have hu : u ≠ 0 := units_ne_zero mode
  set P := buildParticipants mode pc
  obtain ⟨hcourts, _⟩ := scheduleRound_parts rnd P courts u (k + 1) hu
  set ck := chunk ((shuffle P (rnd (k + 1))).take (courts.length * u)) u with hck
  have hshuf : (shuffle P (rnd (k + 1))).length = pc.toNat := by
    rw [(shuffle_perm P (rnd (k + 1))).length_eq]
    exact buildParticipants_length mode pc hpc
  have hlen : ((scheduleRound rnd P courts u (k + 1)).courts).length = ck.length := by
    rw [hcourts]
    simp [List.enum_length]
  have hcklen : ck.length = min courts.length ((pc.toNat + u - 1) / u) := by
    rw [hck, chunk_length _ u hu, List.length_take, hshuf]
    exact ceil_min_div pc.toNat courts.length u hu
  have hckle : ck.length ≤ courts.length := by omega
  constructor
  · rw [hlen, hcklen]
  · rw [hcourts, List.map_map]
    have hmm : (CourtAssignment.courtNumber ∘ fun p : ℕ × List String =>
        ({ courtNumber := courts.getD p.1 0, group := p.2 } : CourtAssignment))
        = (fun i => courts.getD i 0) ∘ Prod.fst := rfl
    rw [hmm, ← List.map_map, List.enum_map_fst, range_map_getD_eq_take courts _ hckle]
    simp [List.enum_length]

unseal chunk in
/-- Witness for the amended C3 at a concrete input. -/
theorem generateSchedule_courts_count_witness :
    ((generateSchedule noRand Mode.couples 3 [1, 2] 1).1.getD 0
        ⟨0, [], []⟩).courts.length = min ([1, 2] : List ℕ).length (((3 : ℤ).toNat + 2 - 1) / 2)
    ∧ ((generateSchedule noRand Mode.couples 3 [1, 2] 1).1.getD 0
        ⟨0, [], []⟩).courts.map CourtAssignment.courtNumber =
      ([1, 2] : List ℕ).take ((generateSchedule noRand Mode.couples 3 [1, 2] 1).1.getD 0
        ⟨0, [], []⟩).courts.length :=
  generateSchedule_courts_count noRand Mode.couples 3 [1, 2] 1 (by decide) (by decide)
    (by decide) ((generateSchedule noRand Mode.couples 3 [1, 2] 1).1.getD 0 ⟨0, [], []⟩)
    (by decide)

/-- C4: the generator reports a non-empty error string together with an empty
round list exactly on invalid input, and each of the three validation
failures produces its own message, checked in source order. -/
theorem generateSchedule_error_characterization (rnd : ℕ → List ℕ) (mode : Mode) (pc : ℤ)
    (courts : List ℕ) (games : ℤ) :
    (((generateSchedule rnd mode pc courts games).2 ≠ "" ∧
        (generateSchedule rnd mode pc courts games).1 = []) ↔
      (pc ≤ 0 ∨ courts = [] ∨ games ≤ 0))
    ∧ (pc ≤ 0 → (generateSchedule rnd mode pc courts games).2 =
        "Please enter the number of couples/players.")
    ∧ (0 < pc → courts = [] → (generateSchedule rnd mode pc courts games).2 =
        "Please enter courts (e.g., 8 or 1-3,5,6).")
    ∧ (0 < pc → courts ≠ [] → games ≤ 0 → (generateSchedule rnd mode pc courts games).2 =
        "Please enter the number of games.") := by
  have hb := buildParticipants_length_zero_iff mode pc
  by_cases hpc : pc ≤ 0
  · have h1 : (buildParticipants mode pc).length = 0 := hb.2 hpc
    rw [generateSchedule]
    simp only [if_pos h1]
    exact ⟨⟨fun _ => Or.inl hpc, fun _ => ⟨by decide, trivial⟩⟩, fun _ => trivial,
      fun h _ => absurd hpc (by omega), fun h _ _ => absurd hpc (by omega)⟩
  · have h1 : ¬ (buildParticipants mode pc).length = 0 := fun h => hpc (hb.1 h)
    by_cases hcrt : courts = []
    · have h2 : courts.length = 0 := by simp [hcrt]
      rw [generateSchedule]
      simp only [if_neg h1, if_pos h2]
      exact ⟨⟨fun _ => Or.inr (Or.inl hcrt), fun _ => ⟨by decide, trivial⟩⟩,
        fun hle => absurd hle hpc, fun _ _ => trivial, fun _ hne _ => absurd hcrt hne⟩
    · have h2 : ¬ courts.length = 0 := by simpa using hcrt
      by_cases hgm : games ≤ 0
      · rw [generateSchedule]
        simp only [if_neg h1, if_neg h2, if_pos hgm]
        exact ⟨⟨fun _ => Or.inr (Or.inr hgm), fun _ => ⟨by decide, trivial⟩⟩,
          fun hle => absurd hle hpc, fun _ hnil => absurd hnil hcrt, fun _ _ _ => trivial⟩
      · rw [generateSchedule]
        simp only [if_neg h1, if_neg h2, if_neg hgm]
        refine ⟨⟨fun hcontra => absurd rfl hcontra.1, fun hor => ?_⟩,
          fun hle => absurd hle hpc, fun _ hnil => absurd hnil hcrt,
          fun _ _ hle => absurd hle hgm⟩
        rcases hor with h | h | h
        exacts [absurd h hpc, absurd h hcrt, absurd h hgm]

/-- Witness for C4: a zero participant count yields an error and no rounds. -/
theorem generateSchedule_error_characterization_witness :
    (generateSchedule noRand Mode.couples 0 [1] 3).2 ≠ "" ∧
    (generateSchedule noRand Mode.couples 0 [1] 3).1 = [] :=
  (generateSchedule_error_characterization noRand Mode.couples 0 [1] 3).1.mpr
    (Or.inl (by decide))

/-- C5: on valid input the generator returns an empty error string and exactly
`gameCount` rounds. -/
theorem generateSchedule_all_rounds (rnd : ℕ → List ℕ) (mode : Mode) (pc : ℤ)
    (courts : List ℕ) (games : ℤ) (hpc : 0 < pc) (hc : courts ≠ []) (hg : 0 < games) :
    (generateSchedule rnd mode pc courts games).2 = "" ∧
    (generateSchedule rnd mode pc courts games).1.length = games.toNat := by
  obtain ⟨h1, h2⟩ := generateSchedule_valid_rounds rnd mode pc courts games hpc hc hg
  refine ⟨h2, ?_⟩
  rw [h1]
  simp

unseal chunk in
/-- Witness for C5 at a concrete input. -/
theorem generateSchedule_all_rounds_witness :
    (generateSchedule noRand Mode.couples 2 [7] 2).2 = "" ∧
    (generateSchedule noRand Mode.couples 2 [7] 2).1.length = (2 : ℤ).toNat :=
  generateSchedule_all_rounds noRand Mode.couples 2 [7] 2 (by decide) (by decide) (by decide)

/-! ### The fairness-aware scheduler of `src/App.tsx`

`Record<string, number>` bye-count maps are association lists read through
`getCount` (the source always reads with `?? 0`), `Set<string>` matchup sets
are lists queried through `contains`.  `pairKey` sorts the two names as
JavaScript `Array.sort` does on strings (lexicographic order, modelled by
the library order on `String`). -/

def pairKey (a b : String) : String :=
  if a ≤ b then a ++ " ⟷ " ++ b else b ++ " ⟷ " ++ a

def getCount (m : List (String × ℕ)) (c : String) : ℕ :=
  (m.lookup c).getD 0

/-- Model of `obj[b] = v` on a JavaScript record: replace the binding when the
key is present, otherwise append it (insertion order). -/
def setCount (m : List (String × ℕ)) (b : String) (v : ℕ) : List (String × ℕ) :=
  if m.any (fun p => p.1 == b) then
    m.map (fun p => if p.1 == b then (b, v) else p)
  else m ++ [(b, v)]

/-- The `byes.forEach((b) => nextByeCounts[b] = (nextByeCounts[b] ?? 0) + 1)`
update step of `generate`. -/
def bumpByes (m : List (String × ℕ)) (byes : List String) : List (String × ℕ) :=
  byes.foldl (fun acc b => setCount acc b (getCount acc b + 1)) m

/-- One of the two `for (const c of shuffle(...)) if (chosen.length < byeSlots)
chosen.push(c)` loops of `chooseByesFair`. -/
def bucketFill (byeSlots : ℕ) (chosen : List String) (xs : List String) : List String :=
  xs.foldl (fun ch c => if ch.length < byeSlots then ch ++ [c] else ch) chosen

/-- The `nonLast` / `last` split of a bucket in `chooseByesFair`: participants
who sat out the previous round are deprioritized when `lastByes` is non-empty. -/
def bucketSplit (lastByes : List String) (bucket : List String) :
    List String × List String :=
  if lastByes.isEmpty then (bucket, [])
  else (bucket.filter (fun x => !lastByes.contains x),
        bucket.filter (fun x => lastByes.contains x))

/-- The `while (chosen.length < byeSlots && i < withCounts.length)` loop of
`chooseByesFair`: peel the leading bucket of equal bye counts, shuffle its two
parts, push until `byeSlots` entries are chosen.  `n` counts shuffle calls so
each dynamic call draws fresh randomness from `rnd`. -/
def chooseByesLoop (rnd : ℕ → List ℕ) (lastByes : List String) (byeSlots : ℕ) :
    List (String × ℕ) → List String → ℕ → List String
  | [], chosen, _ => chosen
  | (a, k) :: rest0, chosen, n =>
    if chosen.length < byeSlots then
      let bucket := (((a, k) :: rest0).takeWhile (fun p => p.2 == k)).map Prod.fst
      let split := bucketSplit lastByes bucket
      let chosen1 := bucketFill byeSlots chosen (shuffle split.1 (rnd n))
      let chosen2 := bucketFill byeSlots chosen1 (shuffle split.2 (rnd (n + 1)))
      chooseByesLoop rnd lastByes byeSlots
        (((a, k) :: rest0).dropWhile (fun p => p.2 == k)) chosen2 (n + 2)
    else chosen
termination_by rest _ _ => rest.length
decreasing_by
  simp only [List.dropWhile_cons]
  rw [if_pos (by simp)]
  have := (List.dropWhile_sublist (l := rest0) (fun p : String × ℕ => p.2 == k)).length_le
  simp only [List.length_cons]
  omega

def chooseByesFair (rnd : ℕ → List ℕ) (couples : List String)
    (byeCounts : List (String × ℕ)) (byeSlots : ℕ) (lastByes : List String) :
    List String :=
  if byeSlots = 0 then []
  else
    let withCounts := (couples.map (fun c => (c, getCount byeCounts c))).mergeSort
      (fun x y => decide (x.2 ≤ y.2))
    chooseByesLoop rnd lastByes byeSlots withCounts [] 0

structure CourtMatch where
  court : ℕ
  team1 : String
  team2 : String
  isOpen : Bool
deriving DecidableEq

structure RoundResult where
  courtsOut : List CourtMatch
  byes : List String
  repeatsUsed : ℕ
deriving DecidableEq

/-- The `while (remaining.length >= 2)` pairing loop of one attempt in
`buildMatchesAvoidRepeats`: take the front participant, pick the first
partner that avoids a repeat (fall back to index 0), count the repeat. -/
def pairUpLoop (ms : List String) : List String → List (String × String) × ℕ
  | [] => ([], 0)
  | [_] => ([], 0)
  | a :: rest0 =>
    let pickIdx := (rest0.findIdx? (fun b => !(ms.contains (pairKey a b)))).getD 0
    let b := rest0.getD pickIdx ""
    let res := pairUpLoop ms (rest0.eraseIdx pickIdx)
    ((a, b) :: res.1, (if ms.contains (pairKey a b) then 1 else 0) + res.2)
termination_by l => l.length
decreasing_by
  simp only [List.length_eraseIdx, List.length_cons]
  split <;> omega

/-- The `for (let attempt = 0; attempt < maxRetries; attempt++)` search of
`buildMatchesAvoidRepeats`: keep the best (lowest-repeat) attempt, break the
instant a zero-repeat attempt appears.  `Infinity` is modelled by `none`.
The result also carries the number of attempts actually performed. -/
def searchLoop (rnd : ℕ → List ℕ) (pool : List String) (ms : List String) :
    ℕ → ℕ → Option (List (String × String)) → Option ℕ →
      Option (List (String × String)) × Option ℕ × ℕ
  | 0, _, best, bestRep => (best, bestRep, 0)
  | fuel + 1, attempt, best, bestRep =>
    let att := pairUpLoop ms (shuffle pool (rnd attempt))
    let isBetter : Bool := match bestRep with
      | none => true
      | some br => decide (att.2 < br)
    if isBetter then
      if att.2 = 0 then (some att.1, some 0, 1)
      else
        let res := searchLoop rnd pool ms fuel (attempt + 1) (some att.1) (some att.2)
        (res.1, res.2.1, res.2.2 + 1)
    else
      let res := searchLoop rnd pool ms fuel (attempt + 1) best bestRep
      (res.1, res.2.1, res.2.2 + 1)

/-- `buildMatchesAvoidRepeats` from `src/App.tsx`; the source's default
`maxRetries` is 250 and the single caller uses that default. -/
def buildMatchesAvoidRepeats (rnd : ℕ → List ℕ) (activeCouples : List String)
    (courtNumbers : List ℕ) (ms : List String) (maxRetries : ℕ) :
    List CourtMatch × ℕ :=
  let needPairs := min courtNumbers.length (activeCouples.length / 2)
  let needPlayers := needPairs * 2
  let pool := activeCouples.take needPlayers
  let res := searchLoop rnd pool ms maxRetries 0 none none
  let matchList := res.1.getD []
  (((matchList.zip courtNumbers).map
      (fun p => { court := p.2, team1 := p.1.1, team2 := p.1.2, isOpen := false })),
   (res.2.1.getD 0))

structure GenState where
  byeCounts : List (String × ℕ)
  matchupSet : List String
  lastByes : List String
deriving DecidableEq

/-- One iteration of the `for (let r = 0; r < roundsN; r++)` loop of
`generate` in `src/App.tsx`.  The randomness oracle `R` is indexed by round,
call site (0 = bye selection, 1 = match search, 2 = active shuffle) and call
number, so every dynamic shuffle call draws its own stream. -/
def roundStep (R : ℕ → ℕ → ℕ → List ℕ) (couples : List String)
    (courtNumbersInUse : List ℕ) (st : GenState) (r : ℕ) :
    RoundResult × GenState :=
  let availableCourts := courtNumbersInUse.length
  let playableCourts := min availableCourts (couples.length / 2)
  let activeSlots := playableCourts * 2
  let byeSlots := couples.length - activeSlots
  let byes := chooseByesFair (R r 0) couples st.byeCounts byeSlots st.lastByes
  let active := couples.filter (fun c => !(byes.contains c))
  let activeShuffled := shuffle active (R r 2 0)
  let courtsThisRound := courtNumbersInUse.take playableCourts
  let bm := buildMatchesAvoidRepeats (R r 1) activeShuffled courtsThisRound st.matchupSet 250
  let openCourts := (courtNumbersInUse.drop playableCourts).map
    (fun c => { court := c, team1 := "", team2 := "", isOpen := true : CourtMatch })
  let courtsOut := bm.1 ++ openCourts
  let nextByeCounts := bumpByes st.byeCounts byes
  let nextMatchupSet := bm.1.foldl
    (fun s m => if s.contains (pairKey m.team1 m.team2) then s
                else s ++ [pairKey m.team1 m.team2]) st.matchupSet
  ({ courtsOut := courtsOut, byes := byes, repeatsUsed := bm.2 },
   { byeCounts := nextByeCounts, matchupSet := nextMatchupSet, lastByes := byes })

/-- State before round `r` of a generation run. -/
def genIter (R : ℕ → ℕ → ℕ → List ℕ) (couples : List String)
    (courtNumbersInUse : List ℕ) (st0 : GenState) : ℕ → GenState
  | 0 => st0
  | r + 1 => (roundStep R couples courtNumbersInUse
      (genIter R couples courtNumbersInUse st0 r) r).2

def roundAt (R : ℕ → ℕ → ℕ → List ℕ) (couples : List String)
    (courtNumbersInUse : List ℕ) (st0 : GenState) (r : ℕ) : RoundResult :=
  (roundStep R couples courtNumbersInUse
    (genIter R couples courtNumbersInUse st0 r) r).1

def clampInt (n mn mx : ℤ) : ℤ := max mn (min mx n)

theorem bucketFill_eq (byeSlots : ℕ) :
    ∀ (xs chosen : List String),
      bucketFill byeSlots chosen xs = chosen ++ xs.take (byeSlots - chosen.length)
  | [], chosen => by simp [bucketFill]
  | x :: xs, chosen => by
    show (x :: xs).foldl _ chosen = _
    rw [List.foldl_cons]
    by_cases h : chosen.length < byeSlots
    · simp only [if_pos h]
      have hrec := bucketFill_eq byeSlots xs (chosen ++ [x])
      rw [bucketFill] at hrec
      rw [hrec]
      have hs : byeSlots - chosen.length = (byeSlots - (chosen ++ [x]).length) + 1 := by
        simp only [List.length_append, List.length_cons, List.length_nil]
        omega
      rw [hs, List.take_succ_cons]
      simp
    · simp only [if_neg h]
      have hrec := bucketFill_eq byeSlots xs chosen
      rw [bucketFill] at hrec
      rw [hrec]
      have hs : byeSlots - chosen.length = 0 := by omega
      rw [hs]
      simp

theorem bucketFill_mem {byeSlots : ℕ} {chosen xs : List String} {y : String}
    (hy : y ∈ bucketFill byeSlots chosen xs) : y ∈ chosen ∨ y ∈ xs := by
  rw [bucketFill_eq] at hy
  rcases List.mem_append.1 hy with h | h
  · exact Or.inl h
  · exact Or.inr (List.take_subset _ _ h)

theorem bucketFill_subset_left (byeSlots : ℕ) (chosen xs : List String) :
    chosen ⊆ bucketFill byeSlots chosen xs := by
  rw [bucketFill_eq]
  exact fun y hy => List.mem_append.2 (Or.inl hy)

theorem bucketFill_full_of_not_mem {byeSlots : ℕ} {chosen xs : List String} {y : String}
    (hy : y ∈ xs) (hny : y ∉ bucketFill byeSlots chosen xs) :
    byeSlots ≤ (bucketFill byeSlots chosen xs).length := by
  rw [bucketFill_eq] at hny ⊢
  by_cases hbig : xs.length ≤ byeSlots - chosen.length
  · rw [List.take_of_length_le hbig] at hny
    exact absurd (List.mem_append.2 (Or.inr hy)) hny
  · simp only [List.length_append, List.length_take]
    omega

theorem bucketFill_of_full {byeSlots : ℕ} {chosen : List String} (xs : List String)
    (h : byeSlots ≤ chosen.length) : bucketFill byeSlots chosen xs = chosen := by
  rw [bucketFill_eq]
  have hz : byeSlots - chosen.length = 0 := by omega
  rw [hz]
  simp

theorem bucketSplit_fst_subset (lb B : List String) : (bucketSplit lb B).1 ⊆ B := by
  rw [bucketSplit]
  split
  · exact fun x hx => hx
  · intro x hx
    exact List.mem_of_mem_filter hx

theorem bucketSplit_snd_subset (lb B : List String) : (bucketSplit lb B).2 ⊆ B := by
  rw [bucketSplit]
  split
  · intro x hx
    simp at hx
  · intro x hx
    exact List.mem_of_mem_filter hx

theorem bucketSplit_cover (lb B : List String) (x : String) (hx : x ∈ B) :
    x ∈ (bucketSplit lb B).1 ∨ x ∈ (bucketSplit lb B).2 := by
  rw [bucketSplit]
  split
  · exact Or.inl hx
  · by_cases h : lb.contains x
    · right
      simp only [List.mem_filter]
      exact ⟨hx, h⟩
    · left
      simp only [List.mem_filter, Bool.not_eq_true']
      exact ⟨hx, by simpa using h⟩

theorem chooseByesLoop_nil (rnd : ℕ → List ℕ) (lb : List String) (byeSlots : ℕ)
    (chosen : List String) (n : ℕ) :
    chooseByesLoop rnd lb byeSlots [] chosen n = chosen := by
  simp [chooseByesLoop]

theorem chooseByesLoop_cons_pos {rnd : ℕ → List ℕ} {lb : List String} {byeSlots : ℕ}
    {a : String} {k : ℕ} {rest0 : List (String × ℕ)} {chosen : List String} {n : ℕ}
    (h : chosen.length < byeSlots) :
    chooseByesLoop rnd lb byeSlots ((a, k) :: rest0) chosen n =
      chooseByesLoop rnd lb byeSlots
        (((a, k) :: rest0).dropWhile (fun p => p.2 == k))
        (bucketFill byeSlots
          (bucketFill byeSlots chosen
            (shuffle (bucketSplit lb
              ((((a, k) :: rest0).takeWhile (fun p => p.2 == k)).map Prod.fst)).1 (rnd n)))
          (shuffle (bucketSplit lb
            ((((a, k) :: rest0).takeWhile (fun p => p.2 == k)).map Prod.fst)).2 (rnd (n + 1))))
        (n + 2) := by
  conv_lhs => rw [chooseByesLoop]
  rw [if_pos h]

theorem chooseByesLoop_cons_neg {rnd : ℕ → List ℕ} {lb : List String} {byeSlots : ℕ}
    {a : String} {k : ℕ} {rest0 : List (String × ℕ)} {chosen : List String} {n : ℕ}
    (h : ¬ chosen.length < byeSlots) :
    chooseByesLoop rnd lb byeSlots ((a, k) :: rest0) chosen n = chosen := by
  conv_lhs => rw [chooseByesLoop]
  rw [if_neg h]

theorem chooseByesLoop_stop (rnd : ℕ → List ℕ) (lb : List String) (byeSlots : ℕ)
    (rest : List (String × ℕ)) (chosen : List String) (n : ℕ)
    (h : byeSlots ≤ chosen.length) :
    chooseByesLoop rnd lb byeSlots rest chosen n = chosen := by
  cases rest with
  | nil => exact chooseByesLoop_nil rnd lb byeSlots chosen n
  | cons p rest0 =>
    obtain ⟨a, k⟩ := p
    exact chooseByesLoop_cons_neg (by omega)

theorem exists_append_trans {α : Type u} {l c x : List α} (h : ∃ t, l = (c ++ x) ++ t) :
    ∃ t, l = c ++ t := by
  obtain ⟨t, ht⟩ := h
  exact ⟨x ++ t, by rw [ht, List.append_assoc]⟩

theorem chooseByesLoop_prefix (rnd : ℕ → List ℕ) (lb : List String) (byeSlots : ℕ) :
    ∀ (rest : List (String × ℕ)) (chosen : List String) (n : ℕ),
      ∃ t, chooseByesLoop rnd lb byeSlots rest chosen n = chosen ++ t
  | [], chosen, n => ⟨[], by rw [chooseByesLoop_nil, List.append_nil]⟩
  | (a, k) :: rest0, chosen, n => by
    by_cases h : chosen.length < byeSlots
    · rw [chooseByesLoop_cons_pos h]
      have hrec := chooseByesLoop_prefix rnd lb byeSlots
        (((a, k) :: rest0).dropWhile (fun p => p.2 == k))
        (bucketFill byeSlots
          (bucketFill byeSlots chosen
            (shuffle (bucketSplit lb
              ((((a, k) :: rest0).takeWhile (fun p => p.2 == k)).map Prod.fst)).1 (rnd n)))
          (shuffle (bucketSplit lb
            ((((a, k) :: rest0).takeWhile (fun p => p.2 == k)).map Prod.fst)).2 (rnd (n + 1))))
        (n + 2)
      obtain ⟨t, ht⟩ := hrec
      rw [ht, bucketFill_eq, bucketFill_eq]
      exact exists_append_trans (exists_append_trans ⟨t, rfl⟩)
    · rw [chooseByesLoop_cons_neg h]
      exact ⟨[], by rw [List.append_nil]⟩
termination_by rest _ _ => rest.length
decreasing_by
  simp only [List.dropWhile_cons]
  rw [if_pos (by simp)]
  have := (List.dropWhile_sublist (l := rest0) (fun p : String × ℕ => p.2 == k)).length_le
  simp only [List.length_cons]
  omega

/-- The `generate` handler of `src/App.tsx`, restricted to its engine effect:
the appended round results and the updated ledger state. -/
def generate (R : ℕ → ℕ → ℕ → List ℕ) (couples : List String)
    (courtNumbersInUse : List ℕ) (st0 : GenState) (roundCount : ℤ) :
    List RoundResult × GenState :=
  let roundsN := (clampInt roundCount 1 10).toNat
  ((List.range roundsN).map (roundAt R couples courtNumbersInUse st0),
   genIter R couples courtNumbersInUse st0 roundsN)

/-- Core invariant of the bye-selection loop: each chosen name has a bye
count no larger than that of any remaining name that ends up unchosen. -/
theorem chooseByesLoop_sep (rnd : ℕ → List ℕ) (lb : List String) (byeSlots : ℕ)
    (K : String → ℕ) :
    ∀ (rest : List (String × ℕ)) (chosen : List String) (n : ℕ),
      rest.Pairwise (fun p q => p.2 ≤ q.2) →
      (∀ p ∈ rest, p.2 = K p.1) →
      (∀ c ∈ chosen, ∀ p ∈ rest, K c ≤ p.2) →
      ∀ p ∈ rest, p.1 ∉ chooseByesLoop rnd lb byeSlots rest chosen n →
      ∀ c ∈ chooseByesLoop rnd lb byeSlots rest chosen n, K c ≤ p.2
  | [], chosen, n => by
    intro _ _ _ p hp
    simp at hp
  | (a, k) :: rest0, chosen, n => by
    intro hsort hkeys hprev p hp hpnot c' hc'
    by_cases hguard : chosen.length < byeSlots
    case neg =>
      rw [chooseByesLoop_cons_neg hguard] at hc'
      exact hprev c' hc' p hp
    case pos =>
      rw [chooseByesLoop_cons_pos hguard] at hpnot hc'
      set TW := ((a, k) :: rest0).takeWhile (fun q : String × ℕ => q.2 == k) with hTW
      set DW := ((a, k) :: rest0).dropWhile (fun q : String × ℕ => q.2 == k) with hDW
      set B := TW.map Prod.fst with hB
      set S := bucketSplit lb B with hS
      set ch1 := bucketFill byeSlots chosen (shuffle S.1 (rnd n)) with hch1
      set ch2 := bucketFill byeSlots ch1 (shuffle S.2 (rnd (n + 1))) with hch2
      have hTWsub : ∀ q ∈ TW, q ∈ (a, k) :: rest0 := fun q hq =>
        (List.takeWhile_prefix _).subset hq
      have hBval : ∀ x ∈ B, K x = k := by
        intro x hx
        obtain ⟨q, hq, rfl⟩ := List.mem_map.1 hx
        have hq2 := hq
        rw [hTW] at hq2
        have h1 := List.mem_takeWhile_imp hq2
        have h2 : q.2 = k := by simpa using h1
        have h3 := hkeys q (hTWsub q hq)
        omega
      have hrest0 : ∀ q ∈ rest0, k ≤ q.2 := (List.pairwise_cons.1 hsort).1
      have hDWsub : ∀ q ∈ DW, q ∈ rest0 := by
        intro q hq
        rw [hDW, List.dropWhile_cons, if_pos (by simp)] at hq
        exact (List.dropWhile_sublist _).subset hq
      have hch2mem : ∀ c ∈ ch2, c ∈ chosen ∨ c ∈ B := by
        intro c hc
        rcases bucketFill_mem hc with hc1 | hc1
        · rcases bucketFill_mem hc1 with hc0 | hc0
          · exact Or.inl hc0
          · exact Or.inr (bucketSplit_fst_subset lb B
              ((shuffle_perm S.1 (rnd n)).mem_iff.1 hc0))
        · exact Or.inr (bucketSplit_snd_subset lb B
            ((shuffle_perm S.2 (rnd (n + 1))).mem_iff.1 hc1))
      have hpsplit : p ∈ TW ∨ p ∈ DW := by
        have hTD : TW ++ DW = (a, k) :: rest0 := List.takeWhile_append_dropWhile _ _
        rw [← hTD] at hp
        exact List.mem_append.1 hp
      rcases hpsplit with hpTW | hpDW
      · have hpTW2 := hpTW
        rw [hTW] at hpTW2
        have hpk : p.2 = k := by
          have h1 := List.mem_takeWhile_imp hpTW2
          simpa using h1
        have hpB : p.1 ∈ B := List.mem_map_of_mem Prod.fst hpTW
        obtain ⟨t2, ht2⟩ := chooseByesLoop_prefix rnd lb byeSlots DW ch2 (n + 2)
        have hch2L : ∀ x ∈ ch2, x ∈ chooseByesLoop rnd lb byeSlots DW ch2 (n + 2) := by
          intro x hx
          rw [ht2]
          exact List.mem_append.2 (Or.inl hx)
        have hpch2 : p.1 ∉ ch2 := fun hmem => hpnot (hch2L _ hmem)
        rcases bucketSplit_cover lb B p.1 hpB with hpS1 | hpS2
        · have hpsh1 : p.1 ∈ shuffle S.1 (rnd n) :=
            (shuffle_perm S.1 (rnd n)).mem_iff.2 hpS1
          have hpch1 : p.1 ∉ ch1 := fun hmem =>
            hpch2 (bucketFill_subset_left byeSlots ch1 _ hmem)
          have hfull : byeSlots ≤ ch1.length :=
            bucketFill_full_of_not_mem hpsh1 hpch1
          have hch2eq : ch2 = ch1 := bucketFill_of_full _ hfull
          have hLeq : chooseByesLoop rnd lb byeSlots DW ch2 (n + 2) = ch1 := by
            rw [hch2eq]
            exact chooseByesLoop_stop rnd lb byeSlots DW ch1 (n + 2) hfull
          rw [hLeq] at hc'
          rcases bucketFill_mem hc' with hcc | hcc
          · exact hprev c' hcc p hp
          · have hcB : c' ∈ B := bucketSplit_fst_subset lb B
              ((shuffle_perm S.1 (rnd n)).mem_iff.1 hcc)
            rw [hpk, hBval c' hcB]
        · have hpsh2 : p.1 ∈ shuffle S.2 (rnd (n + 1)) :=
            (shuffle_perm S.2 (rnd (n + 1))).mem_iff.2 hpS2
          have hfull : byeSlots ≤ ch2.length :=
            bucketFill_full_of_not_mem hpsh2 hpch2
          have hLeq : chooseByesLoop rnd lb byeSlots DW ch2 (n + 2) = ch2 :=
            chooseByesLoop_stop rnd lb byeSlots DW ch2 (n + 2) hfull
          rw [hLeq] at hc'
          rcases hch2mem c' hc' with hcc | hcB
          · exact hprev c' hcc p hp
          · rw [hpk, hBval c' hcB]
      · have hsort' : DW.Pairwise (fun p q : String × ℕ => p.2 ≤ q.2) := by
          rw [hDW]
          exact List.Pairwise.sublist (List.dropWhile_sublist _) hsort
        have hkeys' : ∀ q ∈ DW, q.2 = K q.1 := fun q hq =>
          hkeys q (List.mem_cons_of_mem _ (hDWsub q hq))
        have hprev' : ∀ c ∈ ch2, ∀ q ∈ DW, K c ≤ q.2 := by
          intro c hc q hq
          rcases hch2mem c hc with hcc | hcB
          · exact hprev c hcc q (List.mem_cons_of_mem _ (hDWsub q hq))
          · rw [hBval c hcB]
            exact hrest0 q (hDWsub q hq)
        exact chooseByesLoop_sep rnd lb byeSlots K
          (((a, k) :: rest0).dropWhile (fun q : String × ℕ => q.2 == k)) ch2 (n + 2)
          hsort' hkeys' hprev' p hpDW hpnot c' hc'
termination_by rest _ _ => rest.length
decreasing_by
  simp only [List.dropWhile_cons]
  rw [if_pos (by simp)]
  have := (List.dropWhile_sublist (l := rest0) (fun p : String × ℕ => p.2 == k)).length_le
  simp only [List.length_cons]
  omega

/-- C6: every participant selected for a bye by `chooseByesFair` has a current
bye count less than or equal to that of every non-selected participant.  The
previous-round deprioritization only reorders names inside a bucket of equal
counts, so the comparison holds without exception. -/
theorem chooseByesFair_fairness (rnd : ℕ → List ℕ) (couples : List String)
    (byeCounts : List (String × ℕ)) (byeSlots : ℕ) (lastByes : List String) :
    ∀ c ∈ chooseByesFair rnd couples byeCounts byeSlots lastByes,
    ∀ d ∈ couples, d ∉ chooseByesFair rnd couples byeCounts byeSlots lastByes →
      getCount byeCounts c ≤ getCount byeCounts d := by
  intro c hc d hd hdnot
  rw [chooseByesFair] at hc hdnot
  by_cases h0 : byeSlots = 0
  · rw [if_pos h0] at hc
    simp at hc
  · rw [if_neg h0] at hc hdnot
    set W := (couples.map (fun c => (c, getCount byeCounts c))).mergeSort
      (fun x y => decide (x.2 ≤ y.2)) with hW
    have hsort : W.Pairwise (fun p q : String × ℕ => p.2 ≤ q.2) := by
      have hs := @List.sorted_mergeSort (String × ℕ)
        (fun x y : String × ℕ => decide (x.2 ≤ y.2))
        (by
          intro x y z hxy hyz
          simp only [decide_eq_true_eq] at hxy hyz ⊢
          omega)
        (by
          intro x y
          simp only [Bool.or_eq_true, decide_eq_true_eq]
          omega)
        (couples.map (fun c => (c, getCount byeCounts c)))
      rw [← hW] at hs
      exact hs.imp (fun h => by simpa using h)
    have hkeys : ∀ p ∈ W, p.2 = getCount byeCounts p.1 := by
      intro p hp
      rw [hW] at hp
      have hp2 := (List.mergeSort_perm _ _).mem_iff.1 hp
      obtain ⟨x, _, rfl⟩ := List.mem_map.1 hp2
      rfl
    have hd' : (d, getCount byeCounts d) ∈ W := by
      rw [hW]
      exact (List.mergeSort_perm _ _).mem_iff.2
        (List.mem_map_of_mem (fun c => (c, getCount byeCounts c)) hd)
    exact chooseByesLoop_sep rnd lastByes byeSlots (getCount byeCounts) W [] 0
      hsort hkeys (by intro x hx; simp at hx) (d, getCount byeCounts d) hd' hdnot c hc

unseal chooseByesLoop List.merge List.mergeSort in
/-- Witness for C6 at a concrete input: with counts A=1 and B=0 and one bye
slot, B is chosen and 0 = count(B) ≤ count(A) = 1. -/
theorem chooseByesFair_fairness_witness :
    getCount [("A", 1)] "B" ≤ getCount [("A", 1)] "A" :=
  chooseByesFair_fairness noRand ["A", "B"] [("A", 1)] 1 [] "B" (by decide)
    "A" (by decide) (by decide)

/-! ### Ledger update lemmas for C7 -/

theorem lookup_cons_ne {a k : String} (b : ℕ) (es : List (String × ℕ)) (h : a ≠ k) :
    ((k, b) :: es).lookup a = es.lookup a := by
  rw [List.lookup_cons]
  have hb : (a == k) = false := by simpa using h
  rw [hb]

theorem lookup_map_set_self (b : String) (v : ℕ) :
    ∀ m : List (String × ℕ),
      (m.map (fun p => if p.1 == b then (b, v) else p)).lookup b =
        if (m.lookup b).isSome then some v else none := by
  intro m
  induction m with
  | nil => simp
  | cons a t ih =>
    obtain ⟨x, w⟩ := a
    by_cases hx : x = b
    · subst hx
      simp only [List.map_cons, if_pos (show (x == x) = true by simp)]
      rw [List.lookup_cons_self, List.lookup_cons_self]
      simp
    · have hbx : b ≠ x := Ne.symm hx
      simp only [List.map_cons, if_neg (show ¬ (x == b) = true by simp [hx])]
      rw [lookup_cons_ne _ _ hbx, lookup_cons_ne _ _ hbx, ih]

theorem lookup_map_set_other {q b : String} (hq : q ≠ b) (v : ℕ) :
    ∀ m : List (String × ℕ),
      (m.map (fun p => if p.1 == b then (b, v) else p)).lookup q = m.lookup q := by
  intro m
  induction m with
  | nil => simp
  | cons a t ih =>
    obtain ⟨x, w⟩ := a
    by_cases hx : x = b
    · subst hx
      simp only [List.map_cons, if_pos (show (x == x) = true by simp)]
      rw [lookup_cons_ne _ _ hq, lookup_cons_ne _ _ hq, ih]
    · simp only [List.map_cons, if_neg (show ¬ (x == b) = true by simp [hx])]
      by_cases hxq : x = q
      · subst hxq
        rw [List.lookup_cons_self, List.lookup_cons_self]
      · rw [lookup_cons_ne _ _ (Ne.symm hxq), lookup_cons_ne _ _ (Ne.symm hxq), ih]

theorem lookup_append_single_self (b : String) (v : ℕ) (m : List (String × ℕ))
    (hnone : m.lookup b = none) : (m ++ [(b, v)]).lookup b = some v := by
  rw [List.lookup_append, hnone, List.lookup_cons_self]
  rfl

theorem lookup_append_single_other {q b : String} (hq : q ≠ b) (v : ℕ)
    (m : List (String × ℕ)) : (m ++ [(b, v)]).lookup q = m.lookup q := by
  rw [List.lookup_append, lookup_cons_ne _ _ hq, List.lookup_nil]
  cases m.lookup q <;> rfl

theorem any_key_eq_lookup_isSome (b : String) (m : List (String × ℕ)) :
    (m.any (fun p => p.1 == b)) = (m.lookup b).isSome := by
  rw [Bool.eq_iff_iff, List.any_eq_true, List.lookup_isSome_iff]
  constructor
  · rintro ⟨p, hp, h⟩
    have h2 : p.1 = b := by simpa using h
    exact ⟨p, hp, by simp [h2]⟩
  · rintro ⟨p, hp, h⟩
    have h2 : b = p.1 := by simpa using h
    exact ⟨p, hp, by simp [h2]⟩

theorem getCount_setCount (m : List (String × ℕ)) (b : String) (v : ℕ) (q : String) :
    getCount (setCount m b v) q = if q = b then v else getCount m q := by
  rw [setCount]
  by_cases hany : (m.any (fun p => p.1 == b)) = true
  · rw [if_pos hany]
    by_cases hq : q = b
    · subst hq
      rw [getCount, lookup_map_set_self]
      rw [any_key_eq_lookup_isSome] at hany
      rw [hany]
      simp
    · rw [getCount, lookup_map_set_other hq, if_neg hq, getCount]
  · rw [if_neg hany]
    by_cases hq : q = b
    · subst hq
      rw [any_key_eq_lookup_isSome] at hany
      have hnone : m.lookup q = none := by
        cases h : m.lookup q
        · rfl
        · rw [h] at hany
          simp at hany
      rw [getCount, lookup_append_single_self q v m hnone]
      simp
    · rw [getCount, lookup_append_single_other hq, if_neg hq, getCount]

theorem bumpByes_cons (m : List (String × ℕ)) (b : String) (bs : List String) :
    bumpByes m (b :: bs) = bumpByes (setCount m b (getCount m b + 1)) bs := rfl

theorem getCount_bumpByes_of_nodup :
    ∀ (byes : List String) (m : List (String × ℕ)) (p : String), byes.Nodup →
      getCount (bumpByes m byes) p = getCount m p + (if p ∈ byes then 1 else 0) := by
  intro byes
  induction byes with
  | nil => intro m p _; simp [bumpByes]
  | cons b bs ih =>
    intro m p hnd
    obtain ⟨hb, hnd'⟩ := List.nodup_cons.1 hnd
    rw [bumpByes_cons, ih _ _ hnd', getCount_setCount]
    by_cases hpb : p = b
    · subst hpb
      rw [if_pos rfl, if_neg hb]
      simp
    · rw [if_neg hpb]
      by_cases hpbs : p ∈ bs
      · rw [if_pos hpbs, if_pos (List.mem_cons_of_mem _ hpbs)]
      · rw [if_neg hpbs, if_neg (by simp [hpb, hpbs])]

theorem getCount_bumpByes_mono :
    ∀ (byes : List String) (m : List (String × ℕ)) (p : String),
      getCount m p ≤ getCount (bumpByes m byes) p := by
  intro byes
  induction byes with
  | nil => intro m p; simp [bumpByes]
  | cons b bs ih =>
    intro m p
    rw [bumpByes_cons]
    refine le_trans ?_ (ih _ p)
    rw [getCount_setCount]
    by_cases hpb : p = b
    · subst hpb
      simp
    · rw [if_neg hpb]

/-! ### The chosen bye list has no duplicates when the pool has none -/

theorem bucketSplit_disjoint (lb B : List String) (x : String)
    (h1 : x ∈ (bucketSplit lb B).1) (h2 : x ∈ (bucketSplit lb B).2) : False := by
  by_cases hE : lb.isEmpty
  · rw [bucketSplit, if_pos hE] at h2
    simp at h2
  · rw [bucketSplit, if_neg hE] at h1 h2
    have c1 := (List.mem_filter.1 h1).2
    have c2 := (List.mem_filter.1 h2).2
    simp at c1 c2
    exact c1 c2

theorem bucketSplit_fst_nodup (lb : List String) {B : List String} (hB : B.Nodup) :
    (bucketSplit lb B).1.Nodup := by
  by_cases hE : lb.isEmpty
  · rw [bucketSplit, if_pos hE]
    exact hB
  · rw [bucketSplit, if_neg hE]
    exact hB.filter _

theorem bucketSplit_snd_nodup (lb : List String) {B : List String} (hB : B.Nodup) :
    (bucketSplit lb B).2.Nodup := by
  by_cases hE : lb.isEmpty
  · rw [bucketSplit, if_pos hE]
    exact List.nodup_nil
  · rw [bucketSplit, if_neg hE]
    exact hB.filter _

theorem chooseByesLoop_nodup (rnd : ℕ → List ℕ) (lb : List String) (byeSlots : ℕ) :
    ∀ (rest : List (String × ℕ)) (chosen : List String) (n : ℕ),
      (chosen ++ rest.map Prod.fst).Nodup →
      (chooseByesLoop rnd lb byeSlots rest chosen n).Nodup
  | [], chosen, n => by
    intro h
    rw [chooseByesLoop_nil]
    simpa using h
  | (a, k) :: rest0, chosen, n => by
    intro hnd
    by_cases hguard : chosen.length < byeSlots
    case neg =>
      rw [chooseByesLoop_cons_neg hguard]
      exact (List.nodup_append.1 hnd).1
    case pos =>
      rw [chooseByesLoop_cons_pos hguard]
      set TW := ((a, k) :: rest0).takeWhile (fun q : String × ℕ => q.2 == k) with hTW
      set DW := ((a, k) :: rest0).dropWhile (fun q : String × ℕ => q.2 == k) with hDW
      set B := TW.map Prod.fst with hB
      set S := bucketSplit lb B with hS
      apply chooseByesLoop_nodup rnd lb byeSlots
        (((a, k) :: rest0).dropWhile (fun q : String × ℕ => q.2 == k))
      rw [bucketFill_eq, bucketFill_eq]
      set t1 := (shuffle S.1 (rnd n)).take (byeSlots - chosen.length) with ht1
      set t2 := (shuffle S.2 (rnd (n + 1))).take
        (byeSlots - (chosen ++ t1).length) with ht2
      have hsplit_map : ((a, k) :: rest0).map Prod.fst = B ++ DW.map Prod.fst := by
        conv_lhs => rw [← List.takeWhile_append_dropWhile
          (p := fun q : String × ℕ => q.2 == k) (l := (a, k) :: rest0)]
        rw [List.map_append]
      rw [hsplit_map] at hnd
      have hnd1 : chosen.Nodup := (List.nodup_append.1 hnd).1
      have hnd2 : (B ++ DW.map Prod.fst).Nodup := (List.nodup_append.1 hnd).2.1
      have hdis : chosen.Disjoint (B ++ DW.map Prod.fst) := (List.nodup_append.1 hnd).2.2
      have hndB : B.Nodup := (List.nodup_append.1 hnd2).1
      have hndD : (DW.map Prod.fst).Nodup := (List.nodup_append.1 hnd2).2.1
      have hdisBD : B.Disjoint (DW.map Prod.fst) := (List.nodup_append.1 hnd2).2.2
      have hsub1 : t1 ⊆ S.1 := fun x hx =>
        (shuffle_perm S.1 (rnd n)).mem_iff.1 (List.take_subset _ _ hx)
      have hsub2 : t2 ⊆ S.2 := fun x hx =>
        (shuffle_perm S.2 (rnd (n + 1))).mem_iff.1 (List.take_subset _ _ hx)
      have hndt1 : t1.Nodup :=
        ((shuffle_perm S.1 (rnd n)).nodup_iff.2 (bucketSplit_fst_nodup lb hndB)).sublist
          (List.take_sublist _ _)
      have hndt2 : t2.Nodup :=
        ((shuffle_perm S.2 (rnd (n + 1))).nodup_iff.2
          (bucketSplit_snd_nodup lb hndB)).sublist (List.take_sublist _ _)
      have hdisj12 : t1.Disjoint t2 := fun x hx1 hx2 =>
        bucketSplit_disjoint lb B x (hsub1 hx1) (hsub2 hx2)
      have hdis_cB : chosen.Disjoint B := fun x hx hxB =>
        hdis hx (List.mem_append.2 (Or.inl hxB))
      have hdis_cD : chosen.Disjoint (DW.map Prod.fst) := fun x hx hxD =>
        hdis hx (List.mem_append.2 (Or.inr hxD))
      have hnd_ct1 : (chosen ++ t1).Nodup := List.nodup_append.2
        ⟨hnd1, hndt1, fun x hx hx1 =>
          hdis_cB hx (bucketSplit_fst_subset lb B (hsub1 hx1))⟩
      have hnd_ct1t2 : ((chosen ++ t1) ++ t2).Nodup := List.nodup_append.2
        ⟨hnd_ct1, hndt2, by
          intro x hx hx2
          rcases List.mem_append.1 hx with hxc | hx1
          · exact hdis_cB hxc (bucketSplit_snd_subset lb B (hsub2 hx2))
          · exact hdisj12 hx1 hx2⟩
      refine List.nodup_append.2 ⟨hnd_ct1t2, hndD, ?_⟩
      intro x hx hxD
      rcases List.mem_append.1 hx with hx' | hx2
      · rcases List.mem_append.1 hx' with hxc | hx1
        · exact hdis_cD hxc hxD
        · exact hdisBD (bucketSplit_fst_subset lb B (hsub1 hx1)) hxD
      · exact hdisBD (bucketSplit_snd_subset lb B (hsub2 hx2)) hxD
termination_by rest _ _ => rest.length
decreasing_by
  simp only [List.dropWhile_cons]
  rw [if_pos (by simp)]
  have := (List.dropWhile_sublist (l := rest0) (fun p : String × ℕ => p.2 == k)).length_le
  simp only [List.length_cons]
  omega

theorem chooseByesFair_nodup (rnd : ℕ → List ℕ) (couples : List String)
    (byeCounts : List (String × ℕ)) (byeSlots : ℕ) (lastByes : List String)
    (hnd : couples.Nodup) :
    (chooseByesFair rnd couples byeCounts byeSlots lastByes).Nodup := by
  rw [chooseByesFair]
  by_cases h0 : byeSlots = 0
  · rw [if_pos h0]
    exact List.nodup_nil
  · rw [if_neg h0]
    apply chooseByesLoop_nodup
    have hperm : ((couples.map (fun c => (c, getCount byeCounts c))).mergeSort
        (fun x y => decide (x.2 ≤ y.2))).map Prod.fst ~ couples := by
      have h1 := (List.mergeSort_perm (couples.map (fun c => (c, getCount byeCounts c)))
        (fun x y => decide (x.2 ≤ y.2))).map Prod.fst
      have h2 : (couples.map (fun c => (c, getCount byeCounts c))).map Prod.fst
          = couples := by
        rw [List.map_map]
        show List.map (fun c => c) couples = couples
        exact List.map_id' couples
      rw [h2] at h1
      exact h1
    rw [List.nil_append]
    exact hperm.nodup_iff.2 hnd

theorem roundStep_byes_eq (R : ℕ → ℕ → ℕ → List ℕ) (couples : List String)
    (courts : List ℕ) (st : GenState) (r : ℕ) :
    (roundStep R couples courts st r).1.byes =
      chooseByesFair (R r 0) couples st.byeCounts
        (couples.length - min courts.length (couples.length / 2) * 2) st.lastByes := rfl

theorem roundStep_byeCounts_eq (R : ℕ → ℕ → ℕ → List ℕ) (couples : List String)
    (courts : List ℕ) (st : GenState) (r : ℕ) :
    (roundStep R couples courts st r).2.byeCounts =
      bumpByes st.byeCounts (roundStep R couples courts st r).1.byes := rfl

theorem genIter_succ (R : ℕ → ℕ → ℕ → List ℕ) (couples : List String)
    (courts : List ℕ) (st0 : GenState) (r : ℕ) :
    genIter R couples courts st0 (r + 1)
      = (roundStep R couples courts (genIter R couples courts st0 r) r).2 := rfl

/-- C7: across one generation run, each participant's bye count is a natural
number that never decreases from round to round, and it grows by exactly 1 in
a round exactly when that participant is in the round's bye list (the
participant pool has distinct names). -/
theorem generate_byeCount_ledger (R : ℕ → ℕ → ℕ → List ℕ) (couples : List String)
    (courts : List ℕ) (st0 : GenState) (hnd : couples.Nodup) (r : ℕ) (p : String) :
    getCount (genIter R couples courts st0 (r + 1)).byeCounts p
      = getCount (genIter R couples courts st0 r).byeCounts p
        + (if p ∈ (roundStep R couples courts (genIter R couples courts st0 r) r).1.byes
            then 1 else 0)
    ∧ getCount (genIter R couples courts st0 r).byeCounts p
        ≤ getCount (genIter R couples courts st0 (r + 1)).byeCounts p := by
  have hbnd : ((roundStep R couples courts
      (genIter R couples courts st0 r) r).1.byes).Nodup := by
    rw [roundStep_byes_eq]
    exact chooseByesFair_nodup _ _ _ _ _ hnd
  constructor
  · rw [genIter_succ, roundStep_byeCounts_eq]
    exact getCount_bumpByes_of_nodup _ _ _ hbnd
  · rw [genIter_succ, roundStep_byeCounts_eq]
    exact getCount_bumpByes_mono _ _ _

def noRand3 : ℕ → ℕ → ℕ → List ℕ := fun _ _ _ => []

/-! ### Bounded search lemmas for C8 -/

theorem searchLoop_attempts_le (rnd : ℕ → List ℕ) (pool ms : List String) :
    ∀ (fuel attempt : ℕ) (best : Option (List (String × String))) (bestRep : Option ℕ),
      (searchLoop rnd pool ms fuel attempt best bestRep).2.2 ≤ fuel := by
  intro fuel
  induction fuel with
  | zero =>
    intro attempt best bestRep
    simp [searchLoop]
  | succ fuel ih =>
    intro attempt best bestRep
    simp only [searchLoop]
    split
    · split
      · simp
      · have := ih (attempt + 1) (some (pairUpLoop ms (shuffle pool (rnd attempt))).1)
          (some (pairUpLoop ms (shuffle pool (rnd attempt))).2)
        dsimp only
        omega
    · have := ih (attempt + 1) best bestRep
      dsimp only
      omega

theorem searchLoop_isSome_of_isSome (rnd : ℕ → List ℕ) (pool ms : List String) :
    ∀ (fuel attempt : ℕ) (best : Option (List (String × String))) (bestRep : Option ℕ),
      best.isSome → (searchLoop rnd pool ms fuel attempt best bestRep).1.isSome := by
  intro fuel
  induction fuel with
  | zero =>
    intro attempt best bestRep h
    simpa [searchLoop] using h
  | succ fuel ih =>
    intro attempt best bestRep h
    simp only [searchLoop]
    split
    · split
      · simp
      · dsimp only
        exact ih (attempt + 1) _ _ (by simp)
    · dsimp only
      exact ih (attempt + 1) best bestRep h

theorem searchLoop_isSome_init (rnd : ℕ → List ℕ) (pool ms : List String)
    (fuel attempt : ℕ) (h : 1 ≤ fuel) :
    (searchLoop rnd pool ms fuel attempt none none).1.isSome := by
  obtain ⟨f, rfl⟩ : ∃ f, fuel = f + 1 := ⟨fuel - 1, by omega⟩
  simp only [searchLoop]
  split
  · split
    · simp
    · dsimp only
      exact searchLoop_isSome_of_isSome rnd pool ms f (attempt + 1) _ _ (by simp)
  · rename_i hcontra
    exact absurd trivial hcontra

theorem searchLoop_early (rnd : ℕ → List ℕ) (pool ms : List String) :
    ∀ (k fuel attempt : ℕ) (best : Option (List (String × String))) (bestRep : Option ℕ),
      bestRep ≠ some 0 →
      (∀ j, j < k → (pairUpLoop ms (shuffle pool (rnd (attempt + j)))).2 ≠ 0) →
      (pairUpLoop ms (shuffle pool (rnd (attempt + k)))).2 = 0 →
      k < fuel →
      searchLoop rnd pool ms fuel attempt best bestRep =
        (some (pairUpLoop ms (shuffle pool (rnd (attempt + k)))).1, some 0, k + 1) := by
  intro k
  induction k with
  | zero =>
    intro fuel attempt best bestRep hbr _ hzero hk
    obtain ⟨f, rfl⟩ : ∃ f, fuel = f + 1 := ⟨fuel - 1, by omega⟩
    simp only [Nat.add_zero] at hzero ⊢
    cases bestRep with
    | none => simp [searchLoop, hzero]
    | some br =>
      have hbr' : br ≠ 0 := fun h => hbr (by rw [h])
      have hlt : decide ((pairUpLoop ms (shuffle pool (rnd attempt))).2 < br) = true := by
        rw [hzero]
        simpa using Nat.pos_of_ne_zero hbr'
      simp [searchLoop, hzero, hlt]
      intro h
      exact absurd h hbr'
  | succ k ih =>
    intro fuel attempt best bestRep hbr hbefore hzero hk
    obtain ⟨f, rfl⟩ : ∃ f, fuel = f + 1 := ⟨fuel - 1, by omega⟩
    have hatt0 : ¬ (pairUpLoop ms (shuffle pool (rnd attempt))).2 = 0 := by
      have := hbefore 0 (by omega)
      simpa using this
    have hshift : ∀ j, j < k → (pairUpLoop ms (shuffle pool (rnd (attempt + 1 + j)))).2 ≠ 0 := by
      intro j hj
      have h1 := hbefore (j + 1) (by omega)
      have harith : attempt + (j + 1) = attempt + 1 + j := by omega
      rwa [harith] at h1
    have hzero' : (pairUpLoop ms (shuffle pool (rnd (attempt + 1 + k)))).2 = 0 := by
      have harith : attempt + (k + 1) = attempt + 1 + k := by omega
      rwa [harith] at hzero
    have harith2 : attempt + (k + 1) = attempt + 1 + k := by omega
    cases bestRep with
    | none =>
      have hrec := ih f (attempt + 1) (some (pairUpLoop ms (shuffle pool (rnd attempt))).1)
        (some (pairUpLoop ms (shuffle pool (rnd attempt))).2)
        (fun h => hatt0 (Option.some.inj h)) hshift hzero' (by omega)
      simp only [searchLoop]
      rw [if_pos trivial, if_neg hatt0]
      rw [hrec, harith2]
    | some br =>
      cases hdec : decide ((pairUpLoop ms (shuffle pool (rnd attempt))).2 < br) with
      | true =>
        have hrec := ih f (attempt + 1) (some (pairUpLoop ms (shuffle pool (rnd attempt))).1)
          (some (pairUpLoop ms (shuffle pool (rnd attempt))).2)
          (fun h => hatt0 (Option.some.inj h)) hshift hzero' (by omega)
        simp only [searchLoop, hdec]
        rw [if_pos trivial, if_neg hatt0]
        rw [hrec, harith2]
      | false =>
        have hrec := ih f (attempt + 1) best (some br) hbr hshift hzero' (by omega)
        simp only [searchLoop, hdec]
        rw [if_neg (by simp)]
        rw [hrec, harith2]

/-- C8: the couples-mode group-formation search run by
`buildMatchesAvoidRepeats` performs at most 400 attempts (the source budget is
in fact 250), always terminates holding a best grouping, and stops the instant
an attempt with zero repeated pairings appears, returning that attempt. -/
theorem buildMatchesAvoidRepeats_bounded (rnd : ℕ → List ℕ)
    (activeCouples : List String) (courtNumbers : List ℕ) (ms : List String) :
    (searchLoop rnd
        (activeCouples.take (min courtNumbers.length (activeCouples.length / 2) * 2))
        ms 250 0 none none).2.2 ≤ 400
    ∧ (searchLoop rnd
        (activeCouples.take (min courtNumbers.length (activeCouples.length / 2) * 2))
        ms 250 0 none none).1.isSome
    ∧ (∀ k, k < 250 →
        (pairUpLoop ms (shuffle
          (activeCouples.take (min courtNumbers.length (activeCouples.length / 2) * 2))
          (rnd k))).2 = 0 →
        (∀ j, j < k → (pairUpLoop ms (shuffle
          (activeCouples.take (min courtNumbers.length (activeCouples.length / 2) * 2))
          (rnd j))).2 ≠ 0) →
        searchLoop rnd
          (activeCouples.take (min courtNumbers.length (activeCouples.length / 2) * 2))
          ms 250 0 none none =
          (some (pairUpLoop ms (shuffle
            (activeCouples.take (min courtNumbers.length (activeCouples.length / 2) * 2))
            (rnd k))).1, some 0, k + 1))
    ∧ (buildMatchesAvoidRepeats rnd activeCouples courtNumbers ms 250).1 =
        (((searchLoop rnd
            (activeCouples.take (min courtNumbers.length (activeCouples.length / 2) * 2))
            ms 250 0 none none).1.getD []).zip courtNumbers).map
          (fun p => { court := p.2, team1 := p.1.1, team2 := p.1.2, isOpen := false }) := by
  refine ⟨le_trans (searchLoop_attempts_le rnd _ ms 250 0 none none) (by omega),
    searchLoop_isSome_init rnd _ ms 250 0 (by omega), ?_, rfl⟩
  intro k hk hzero hbefore
  have := searchLoop_early rnd
    (activeCouples.take (min courtNumbers.length (activeCouples.length / 2) * 2)) ms
    k 250 0 none none (by simp) (by simpa using hbefore) (by simpa using hzero) hk
  simpa using this

unseal pairUpLoop in
/-- Witness for C8: with an empty matchup history and two active couples, the
first attempt has zero repeats and the search stops after exactly 1 attempt. -/
theorem buildMatchesAvoidRepeats_bounded_witness :
    searchLoop noRand (List.take (min ([1] : List ℕ).length ((["A", "B"] : List String).length / 2) * 2) ["A", "B"])
      [] 250 0 none none =
      (some (pairUpLoop [] (shuffle (List.take (min ([1] : List ℕ).length ((["A", "B"] : List String).length / 2) * 2) ["A", "B"]) (noRand 0))).1, some 0, 0 + 1) :=
  (buildMatchesAvoidRepeats_bounded noRand ["A", "B"] [1] []).2.2.1 0 (by decide)
    (by decide) (by intro j hj; omega)

/-- Witness for C7 at a concrete input. -/
theorem generate_byeCount_ledger_witness :
    getCount (genIter noRand3 ["A", "B", "C"] [1] ⟨[], [], []⟩ 1).byeCounts "A"
      = getCount (genIter noRand3 ["A", "B", "C"] [1] ⟨[], [], []⟩ 0).byeCounts "A"
        + (if "A" ∈ (roundStep noRand3 ["A", "B", "C"] [1]
            (genIter noRand3 ["A", "B", "C"] [1] ⟨[], [], []⟩ 0) 0).1.byes
           then 1 else 0) :=
  (generate_byeCount_ledger noRand3 ["A", "B", "C"] [1] ⟨[], [], []⟩ (by decide) 0 "A").1

/-! ### Session statistics: `asText` from `src/App.tsx`

The statistics pass renders the finished rounds and the bye-count ledger to
text.  `localeCompare` tie-breaking on names is modelled by the library order
on `String`. -/

def roundLines (idx : ℕ) (r : RoundResult) : List String :=
  ["ROUND " ++ Nat.repr (idx + 1)]
  ++ (if r.courtsOut.length = 0 then
        ["(No playable courts — need at least 2 couples)"] else [])
  ++ r.courtsOut.map (fun m =>
      if m.isOpen then "Court " ++ Nat.repr m.court ++ ": OPEN"
      else "Court " ++ Nat.repr m.court ++ ": " ++ m.team1 ++ " vs " ++ m.team2)
  ++ (if r.byes.length ≠ 0 then ["Byes: " ++ String.intercalate ", " r.byes] else [])
  ++ (if r.repeatsUsed ≠ 0 then
        ["(Used " ++ Nat.repr r.repeatsUsed ++ " repeat matchup"
          ++ (if r.repeatsUsed = 1 then "" else "s") ++ " — unavoidable)"]
      else [])
  ++ [""]

def asText (rounds : List RoundResult) (byeCounts : List (String × ℕ)) : String :=
  let lines := (rounds.enum.map (fun p => roundLines p.1 p.2)).flatten
  let sorted := byeCounts.mergeSort
    (fun x y => decide (x.2 < y.2 ∨ (x.2 = y.2 ∧ x.1 ≤ y.1)))
  let allLines := lines ++
    (if sorted.length ≠ 0 then
      ["BYE COUNTS (fair rotation)"] ++ sorted.map (fun p => p.1 ++ ": " ++ Nat.repr p.2)
    else [])
  String.intercalate "\n" allLines

/-- Two successive applications of the statistics pass to the same data, as
performed by a caller: the embedding is a pure function of its two inputs, so
the state threaded between the applications is the inputs themselves. -/
def analyzeTwice (rounds : List RoundResult) (byeCounts : List (String × ℕ)) :
    String × String :=
  (asText rounds byeCounts, asText rounds byeCounts)

/-- C9: `asText` is pure and idempotent — applied twice to the same finished
rounds list and ledger it yields identical results, and neither input is
modified (the TypeScript function writes only to its local `lines` array and
sorts only the fresh array produced by `Object.entries`, so its shallow
embedding is a pure function and mutation-freedom holds by construction). -/
theorem asText_idempotent (rounds : List RoundResult) (byeCounts : List (String × ℕ)) :
    (analyzeTwice rounds byeCounts).1 = (analyzeTwice rounds byeCounts).2
    ∧ (analyzeTwice rounds byeCounts).1 = asText rounds byeCounts :=
  ⟨rfl, rfl⟩

/-- C10: `shuffle` (identical in both source files) returns a permutation of
its input: same elements with the same multiplicities; the input list itself
is untouched (the source copies the array before the Fisher–Yates pass, and
the embedding is pure). -/
theorem shuffle_is_permutation {α : Type u} [DecidableEq α] (l : List α) (js : List ℕ) :
    (shuffle l js).Perm l ∧ ∀ a : α, (shuffle l js).count a = l.count a :=
  ⟨shuffle_perm l js, fun a => (shuffle_perm l js).count_eq a⟩

end Pickleball

